import Mathlib

/-!
Shallow embedding of the parallel chunked download engine of `adb-explorer`
(`src/downloadManager.js`, with its HTTP callers in `src/server.js`), and
proofs about it.  Each definition is annotated with the source function it
embeds.  JS numbers holding byte counts and sizes are modelled as `Int`/`Nat`
(all values in play are integers); the fractional speed/percent/ETA
computations are modelled over `ℚ`.
-/

namespace AdbExplorer

/-- Byte content of a file, one `Nat` per byte. -/
abbrev Bytes := List Nat

/-- A named in-memory file system: the local disk the chunk temp files and the
destination file live on.  `fsSet` makes the newest write shadow older ones. -/
abbrev FileSys := List (String × Bytes)

/-- Lookup a file's content (`fs.readFileSync` / the data behind
`fs.existsSync`). -/
def fsGet : FileSys → String → Option Bytes
  | [], _ => none
  | (n, d) :: fs, name => if n = name then some d else fsGet fs name

/-- Delete a file (`fs.unlinkSync`). -/
def fsDelete (fs : FileSys) (name : String) : FileSys :=
  fs.filter (fun p => p.1 != name)

/-- Create/overwrite a file with the given content (a completed
`fs.createWriteStream` or a chunk's range-read output landing on disk). -/
def fsSet (fs : FileSys) (name : String) (data : Bytes) : FileSys :=
  (name, data) :: fsDelete fs name

/-- Job status, the string `this.status` of `DownloadJob`. -/
inductive JobStatus
  | pending
  | downloading
  | merging
  | completed
  | error
  | paused
  | cancelled
  deriving DecidableEq, Repr

/-- Per-chunk status, the string `chunk.status`. -/
inductive ChunkStatus
  | pending
  | downloading
  | completed
  | error
  deriving DecidableEq, Repr

/-- One chunk descriptor as built by `DownloadJob._initChunks`.  The source
field `end` is a Lean keyword and is called `stop` here (exclusive end
offset). -/
structure Chunk where
  index : Nat
  start : Nat
  stop : Nat
  size : Nat
  status : ChunkStatus
  localFile : String
  deriving DecidableEq, Repr

/-- The chunk fields that are never mutated after `_initChunks` (everything
but `status`). -/
def chunkData (c : Chunk) : Nat × Nat × Nat × Nat × String :=
  (c.index, c.start, c.stop, c.size, c.localFile)

/-- `CHUNK_SIZE = 50 * 1024 * 1024` (50MB chunks). -/
def CHUNK_SIZE : Nat := 50 * 1024 * 1024

/-- `MAX_CONCURRENCY = 4` (4 parallel ADB processes). -/
def MAX_CONCURRENCY : Nat := 4

/-- `Math.ceil (a / c)` for an integer `a` and positive integer `c`, written
computably: `Int` division is Euclidean division, which is floor division for
a positive divisor, and the ceiling of a quotient is minus the floor of the
negated quotient.  `ceilDiv_eq_ceil` below proves this equals the exact
rational ceiling. -/
def ceilDiv (a : Int) (c : Nat) : Int := -((-a) / (c : Int))

/-- `DownloadJob._initChunks`, parameterised by the chunk size constant so the
planner facts can be stated for every chunk size; the engine instantiates it
with `CHUNK_SIZE` (see `initChunks`).  `numChunks = Math.ceil(fileSize /
CHUNK_SIZE)`; chunk `i` covers `[i*C, min((i*C)+C, fileSize))`. -/
def initChunksWith (C : Nat) (localPath : String) (fileSize : Int) : List Chunk :=
  let numChunks := ceilDiv fileSize C
  (List.range numChunks.toNat).map (fun i =>
    let start := i * C
    let stop := min (start + C) fileSize.toNat
    { index := i
      start := start
      stop := stop
      size := stop - start
      status := ChunkStatus.pending
      localFile := localPath ++ ".chunk" ++ toString i })

/-- `DownloadJob._initChunks` with the engine's `CHUNK_SIZE`. -/
def initChunks (localPath : String) (fileSize : Int) : List Chunk :=
  initChunksWith CHUNK_SIZE localPath fileSize

/-- The mutable state of one `DownloadJob`.  `startTime` is `none` until
`start()` runs (`null` in the source). -/
structure DownloadJob where
  jobId : String
  remotePath : String
  localPath : String
  fileSize : Int
  chunks : List Chunk
  completedChunks : Nat
  bytesDownloaded : Nat
  status : JobStatus
  startTime : Option Int
  speed : ℚ
  error : Option String
  deriving DecidableEq, Repr

/-- The `DownloadJob` constructor. -/
def DownloadJob.new (jobId remotePath localPath : String) (fileSize : Int) :
    DownloadJob :=
  { jobId := jobId
    remotePath := remotePath
    localPath := localPath
    fileSize := fileSize
    chunks := initChunks localPath fileSize
    completedChunks := 0
    bytesDownloaded := 0
    status := JobStatus.pending
    startTime := none
    speed := 0
    error := none }

/-- JS `Math.round`: round half toward positive infinity. -/
def jsRound (x : ℚ) : Int := (x + 1/2).floor

/-- Node `path.basename`, modelled as the last `/`-separated component (the
claims do not depend on this field). -/
def basename (p : String) : String :=
  ((p.splitOn "/").filter (fun s => s != "")).getLastD p

/-- The immutable progress snapshot built by `DownloadJob.getProgress`.  The
derived display strings `speedFormatted`/`etaFormatted` are pure functions of
`speed`/`eta` and are not modelled. -/
structure ProgressSnapshot where
  jobId : String
  fileName : String
  status : JobStatus
  bytesDownloaded : Nat
  totalBytes : Int
  percent : ℚ
  speed : ℚ
  eta : Int
  completedChunks : Nat
  totalChunks : Nat
  error : Option String
  deriving DecidableEq, Repr

/-- `DownloadJob.getProgress`. -/
def DownloadJob.getProgress (j : DownloadJob) : ProgressSnapshot :=
  let percent : ℚ :=
    if 0 < j.fileSize then (j.bytesDownloaded : ℚ) / (j.fileSize : ℚ) * 100 else 0
  let eta : ℚ :=
    if 0 < j.speed then ((j.fileSize : ℚ) - (j.bytesDownloaded : ℚ)) / j.speed else 0
  { jobId := j.jobId
    fileName := basename j.remotePath
    status := j.status
    bytesDownloaded := j.bytesDownloaded
    totalBytes := j.fileSize
    percent := (jsRound (percent * 100) : ℚ) / 100
    speed := j.speed
    eta := jsRound eta
    completedChunks := j.completedChunks
    totalChunks := j.chunks.length
    error := j.error }

/-- `DownloadJob._updateSpeed` at wall-clock time `now` (milliseconds).
`startTime` is always set (line 49) before any worker can call this; the
`getD 0` default is never reached in a modelled run. -/
def DownloadJob.updateSpeed (j : DownloadJob) (now : Int) : DownloadJob :=
  let elapsed : ℚ := ((now : ℚ) - ((j.startTime.getD 0 : Int) : ℚ)) / 1000
  if 0 < elapsed then { j with speed := (j.bytesDownloaded : ℚ) / elapsed } else j

/-- `DownloadJob.pause`: unconditionally sets the status. -/
def DownloadJob.pause (j : DownloadJob) : DownloadJob :=
  { j with status := JobStatus.paused }

/-- `DownloadJob.cancel`: unconditionally sets the status and unlinks every
chunk temp file that exists. -/
def DownloadJob.cancel (j : DownloadJob) (fs : FileSys) : DownloadJob × FileSys :=
  ({ j with status := JobStatus.cancelled },
   j.chunks.foldl
     (fun fs c => if (fsGet fs c.localFile).isSome then fsDelete fs c.localFile else fs)
     fs)

/-- The loop body of `DownloadJob._mergeChunks`: walk the chunk list in order,
appending each existing temp file's content to the accumulated output and
unlinking it. -/
def mergeFold (chunks : List Chunk) (acc : Bytes × FileSys) : Bytes × FileSys :=
  chunks.foldl
    (fun (acc : Bytes × FileSys) c =>
      match fsGet acc.2 c.localFile with
      | some data => (acc.1 ++ data, fsDelete acc.2 c.localFile)
      | none => acc)
    acc

/-- `DownloadJob._mergeChunks`: set status to `merging`, then append each
chunk's temp file content (when the file exists) to the destination in chunk
list order, unlinking each temp file as it is consumed; finally the
destination file holds the accumulated content. -/
def DownloadJob.mergeChunks (j : DownloadJob) (fs : FileSys) : DownloadJob × FileSys :=
  let j' := { j with status := JobStatus.merging }
  let acc := mergeFold j.chunks ([], fs)
  (j', fsSet acc.2 j.localPath acc.1)

/-- Lines 87–91 of `DownloadJob.start`: after `Promise.all(activeWorkers)`
settles, merge and mark completed unless the status is `error` or `paused`. -/
def DownloadJob.finishAfterWorkers (j : DownloadJob) (fs : FileSys) :
    DownloadJob × FileSys :=
  if j.status ≠ JobStatus.error ∧ j.status ≠ JobStatus.paused then
    let m := j.mergeChunks fs
    ({ m.1 with status := JobStatus.completed }, m.2)
  else (j, fs)

/-- The outcome the `exec` callback of `_downloadChunk` observes: whether
`error` was non-null, and the captured `stderr` text. -/
structure ExecOutcome where
  errored : Bool
  stderr : String
  deriving DecidableEq, Repr

/-- Resolution of `DownloadJob._downloadChunk`: the promise rejects exactly
when the exec reported an error and the chunk temp file does not exist, with
the message carrying the chunk index and the stderr text; otherwise it
resolves. -/
def downloadChunkResult (c : Chunk) (r : ExecOutcome) (fs : FileSys) :
    Except String Unit :=
  if r.errored = true ∧ (fsGet fs c.localFile).isNone then
    Except.error ("Chunk " ++ toString c.index ++ " failed: " ++ r.stderr)
  else Except.ok ()

/-- One worker of the pool started by `DownloadJob.start`: `ready` is a worker
about to run `processNext`, `fetching i` is a worker awaiting
`_downloadChunk` on the chunk at position `i`, `exited` is a worker whose
`processNext` returned. -/
inductive Worker
  | ready
  | fetching (i : Nat)
  | exited
  deriving DecidableEq, Repr

/-- The in-flight state of one running `DownloadJob.start` call: the job, the
FIFO `queue` (positions into `job.chunks`; `queue = [...this.chunks]` holds
the chunks in list order), and the worker slots. -/
structure RunState where
  job : DownloadJob
  queue : List Nat
  workers : List Worker
  deriving DecidableEq, Repr

/-- The dispatch guard at the top of `processNext`:
`queue.length === 0 || this.status === 'paused' || this.status === 'error'`. -/
def dispatchGuard (s : RunState) : Bool :=
  s.queue.isEmpty || s.job.status == JobStatus.paused
    || s.job.status == JobStatus.error

/-- Overwrite the status of the chunk at position `i` (the source mutates the
shared chunk object). -/
def setChunkStatus (chunks : List Chunk) (i : Nat) (st : ChunkStatus) :
    List Chunk :=
  match chunks.get? i with
  | some c => chunks.set i { c with status := st }
  | none => chunks

/-- Lines 47–53 and 80–85 of `DownloadJob.start`: set status `downloading` and
`startTime`, copy the chunk list into the queue, and launch
`min(MAX_CONCURRENCY, chunks.length)` workers, each entering `processNext`. -/
def startRun (j : DownloadJob) (now : Int) : RunState :=
  { job := { j with status := JobStatus.downloading, startTime := some now }
    queue := List.range j.chunks.length
    workers := List.replicate (min MAX_CONCURRENCY j.chunks.length) Worker.ready }

/-- Count of chunk fetches currently in flight. -/
def inFlight (s : RunState) : Nat :=
  (s.workers.filterMap (fun w => match w with | Worker.fetching i => some i | _ => none)).length

/-- Small-step semantics of the worker pool of `DownloadJob.start`, with the
externally callable `pause()`/`cancel()` interleaved.  The fetch steps are
parameterised by the environment's exec outcome and the disk state at callback
time, which decide `_downloadChunk`'s resolution. -/
inductive Step : RunState → RunState → Prop
  /-- `processNext` returns at once: the guard is true, the worker exits. -/
  | guardExit (s : RunState) (w : Nat)
      (hw : s.workers.get? w = some Worker.ready)
      (hg : dispatchGuard s = true) :
      Step s { s with workers := s.workers.set w Worker.exited }
  /-- `processNext` body: guard false, `queue.shift()` yields the chunk at
  position `i`, its status becomes `downloading` and its fetch starts. -/
  | dequeue (s : RunState) (w i : Nat) (rest : List Nat)
      (hw : s.workers.get? w = some Worker.ready)
      (hg : dispatchGuard s = false)
      (hq : s.queue = i :: rest) :
      Step s
        { job := { s.job with chunks := setChunkStatus s.job.chunks i ChunkStatus.downloading }
          queue := rest
          workers := s.workers.set w (Worker.fetching i) }
  /-- `_downloadChunk` resolves: counters update, speed refreshes, a snapshot
  is emitted, and the worker re-enters `processNext`. -/
  | fetchOk (s : RunState) (w i : Nat) (c : Chunk) (r : ExecOutcome)
      (fs : FileSys) (now : Int)
      (hw : s.workers.get? w = some (Worker.fetching i))
      (hc : s.job.chunks.get? i = some c)
      (hr : downloadChunkResult c r fs = Except.ok ()) :
      Step s
        { job := DownloadJob.updateSpeed
            { s.job with
                chunks := setChunkStatus s.job.chunks i ChunkStatus.completed
                completedChunks := s.job.completedChunks + 1
                bytesDownloaded := s.job.bytesDownloaded + c.size }
            now
          queue := s.queue
          workers := s.workers.set w Worker.ready }
  /-- `_downloadChunk` rejects: the chunk and job flip to `error`, the message
  is recorded, and the worker's `processNext` chain ends. -/
  | fetchErr (s : RunState) (w i : Nat) (c : Chunk) (r : ExecOutcome)
      (fs : FileSys) (msg : String)
      (hw : s.workers.get? w = some (Worker.fetching i))
      (hc : s.job.chunks.get? i = some c)
      (hr : downloadChunkResult c r fs = Except.error msg) :
      Step s
        { job := { s.job with
            chunks := setChunkStatus s.job.chunks i ChunkStatus.error
            error := some msg
            status := JobStatus.error }
          queue := s.queue
          workers := s.workers.set w Worker.exited }
  /-- An external `pause()` call. -/
  | pause (s : RunState) :
      Step s { s with job := s.job.pause }
  /-- An external `cancel()` call (its temp-file cleanup acts on the disk, not
  on the run state). -/
  | cancel (s : RunState) :
      Step s { s with job := { s.job with status := JobStatus.cancelled } }

/-- Reachability along worker-pool steps. -/
def Reaches (s s' : RunState) : Prop := Relation.ReflTransGen Step s s'

/-- The process-wide `activeDownloads` map, newest entry first. -/
abbrev Registry := List (String × DownloadJob)

/-- `activeDownloads.get(jobId)`. -/
def registryGet : Registry → String → Option DownloadJob
  | [], _ => none
  | (k, j) :: reg, jobId => if k = jobId then some j else registryGet reg jobId

/-- `activeDownloads.delete(jobId)`. -/
def registryDelete (reg : Registry) (jobId : String) : Registry :=
  reg.filter (fun p => p.1 != jobId)

/-- `activeDownloads.set(jobId, job)`. -/
def registrySet (reg : Registry) (jobId : String) (job : DownloadJob) : Registry :=
  (jobId, job) :: registryDelete reg jobId

/-- `createDownloadJob`: builds the job and stores it; the generated
`dl_<timestamp>_<random>` identifier is passed in as a parameter (it is the
only nondeterministic input). -/
def createDownloadJob (reg : Registry) (jobId remotePath localPath : String)
    (fileSize : Int) : DownloadJob × Registry :=
  let job := DownloadJob.new jobId remotePath localPath fileSize
  (job, registrySet reg jobId job)

/-- `getDownloadJob`. -/
def getDownloadJob (reg : Registry) (jobId : String) : Option DownloadJob :=
  registryGet reg jobId

/-- `getAllDownloads`: one progress snapshot per registered job. -/
def getAllDownloads (reg : Registry) : List ProgressSnapshot :=
  reg.map (fun p => p.2.getProgress)

/-- `removeDownloadJob`: if the job exists, cancel it (deleting its temp
files) and drop its registry entry; otherwise do nothing. -/
def removeDownloadJob (reg : Registry) (fs : FileSys) (jobId : String) :
    Registry × FileSys :=
  match registryGet reg jobId with
  | some job =>
      let r := job.cancel fs
      (registryDelete reg jobId, r.2)
  | none => (reg, fs)

/-- The byte range `[a, b)` of a file's content. -/
def slice (file : Bytes) (a b : Nat) : Bytes := (file.take b).drop a

/-- Sum of the sizes of the chunks currently marked `completed`. -/
def completedSizes (chunks : List Chunk) : Nat :=
  ((chunks.filter (fun c => c.status == ChunkStatus.completed)).map Chunk.size).sum


/-! ### Concrete instances used by witnesses and counterexamples -/

/-- A five-chunk job (5 × `CHUNK_SIZE` bytes). -/
def cexJob : DownloadJob :=
  DownloadJob.new "dl_1" "/sdcard/big.bin" "/tmp/big.bin" (5 * (CHUNK_SIZE : Int))

/-- The freshly started run of `cexJob`. -/
def cexS0 : RunState := startRun cexJob 0

/-- `cexS0` after worker 0 dequeues chunk 0. -/
def cexS1 : RunState :=
  { job := { cexS0.job with chunks := setChunkStatus cexS0.job.chunks 0 ChunkStatus.downloading }
    queue := [1, 2, 3, 4]
    workers := cexS0.workers.set 0 (Worker.fetching 0) }

/-- `cexS1` after an external `cancel()` call. -/
def cexS2 : RunState := { cexS1 with job := { cexS1.job with status := JobStatus.cancelled } }

/-- Chunk 0 of `cexJob` as it sits in `cexS2` (already marked downloading). -/
def cexChunk0 : Chunk :=
  { index := 0
    start := 0
    stop := CHUNK_SIZE
    size := CHUNK_SIZE
    status := ChunkStatus.downloading
    localFile := "/tmp/big.bin.chunk0" }

/-- `cexS2` after worker 0's in-flight fetch of chunk 0 succeeds (at time 1). -/
def cexS3 : RunState :=
  { job := DownloadJob.updateSpeed
      { cexS2.job with
          chunks := setChunkStatus cexS2.job.chunks 0 ChunkStatus.completed
          completedChunks := cexS2.job.completedChunks + 1
          bytesDownloaded := cexS2.job.bytesDownloaded + cexChunk0.size }
      1
    queue := cexS2.queue
    workers := cexS2.workers.set 0 Worker.ready }

/-- `cexS3` after worker 0 dequeues chunk 1 — although the job is cancelled. -/
def cexS4 : RunState :=
  { job := { cexS3.job with chunks := setChunkStatus cexS3.job.chunks 1 ChunkStatus.downloading }
    queue := [2, 3, 4]
    workers := cexS3.workers.set 0 (Worker.fetching 1) }

/-- A one-chunk job used by the chunk-failure witness. -/
def c7job : DownloadJob :=
  DownloadJob.new "dl_2" "/sdcard/a.bin" "/tmp/a.bin" (CHUNK_SIZE : Int)

/-- A run state of `c7job` whose single worker is fetching chunk 0. -/
def c7s : RunState := { job := c7job, queue := [], workers := [Worker.fetching 0] }

/-- Chunk 0 of `c7job`. -/
def c7chunk : Chunk :=
  { index := 0
    start := 0
    stop := CHUNK_SIZE
    size := CHUNK_SIZE
    status := ChunkStatus.pending
    localFile := "/tmp/a.bin.chunk0" }

/-- A 7-byte remote file fetched with chunk size 3 (witness for the merger). -/
def c2file : Bytes := [10, 11, 12, 13, 14, 15, 16]

/-- A job whose three chunks (sizes 3, 3, 1) have all completed. -/
def c2job : DownloadJob :=
  { DownloadJob.new "dl_3" "/sdcard/b.bin" "/tmp/b.bin" 7 with
      chunks := (initChunksWith 3 "/tmp/b.bin" 7).map
        (fun c => { c with status := ChunkStatus.completed }) }

/-- The disk holding the three completed chunk temp files of `c2job`. -/
def c2fs : FileSys :=
  [("/tmp/b.bin.chunk0", [10, 11, 12]),
   ("/tmp/b.bin.chunk1", [13, 14, 15]),
   ("/tmp/b.bin.chunk2", [16])]

/-- A one-chunk 7-byte job used by the registry-removal witness. -/
def c9job : DownloadJob := DownloadJob.new "dl_9" "/sdcard/d.bin" "/tmp/d.bin" 7

/-- A registry holding `c9job`. -/
def c9reg : Registry := [("dl_9", c9job)]

/-- The disk holding `c9job`'s single chunk temp file. -/
def c9fs : FileSys := [("/tmp/d.bin.chunk0", [1, 2, 3])]

/-! ## Chunk planner arithmetic (claim C1) -/

theorem ceilDiv_eq_ceil (a : Int) (c : Nat) :
    ceilDiv a c = Int.ceil ((a : ℚ) / (c : ℚ)) := by
  have h1 : ((a : ℚ)) / (c : ℚ) = -((((-a : Int) : ℚ)) / (c : ℚ)) := by
    push_cast
    ring
  rw [ceilDiv, h1, Int.ceil_neg, Rat.floor_intCast_div_natCast]

theorem ceilDiv_natCast (t c : Nat) (hc : 0 < c) :
    ceilDiv (t : Int) c = ((t + c - 1) / c : Nat) := by
  have hcq : (0 : ℚ) < (c : ℚ) := by exact_mod_cast hc
  have h := Nat.div_add_mod (t + c - 1) c
  have hr : (t + c - 1) % c < c := Nat.mod_lt _ hc
  set q := (t + c - 1) / c with hq
  have hb : t ≤ c * q ∧ c * q < t + c := by
    set m := c * q with hm
    set r := (t + c - 1) % c with hrr
    omega
  have hq1 : (t : ℚ) ≤ (c : ℚ) * (q : ℚ) := by exact_mod_cast hb.1
  have hq2 : (c : ℚ) * (q : ℚ) < (t : ℚ) + (c : ℚ) := by exact_mod_cast hb.2
  rw [ceilDiv_eq_ceil]
  rw [Int.ceil_eq_iff]
  constructor
  · push_cast
    rw [lt_div_iff₀ hcq]
    nlinarith
  · push_cast
    rw [div_le_iff₀ hcq]
    nlinarith


theorem ceilDiv_toNat (t c : Nat) (hc : 0 < c) :
    (ceilDiv (t : Int) c).toNat = (t + c - 1) / c := by
  rw [ceilDiv_natCast t c hc]
  exact Int.toNat_natCast _

theorem ceilDiv_nonpos (a : Int) (c : Nat) (ha : a ≤ 0) : (ceilDiv a c).toNat = 0 := by
  have h1 : 0 ≤ (-a) / (c : Int) :=
    Int.ediv_nonneg (by omega) (by exact_mod_cast Nat.zero_le c)
  rw [ceilDiv]
  omega

theorem ceilDiv_toNat_int (T : Int) (c : Nat) (hT : 0 ≤ T) (hc : 0 < c) :
    (ceilDiv T c).toNat = (T.toNat + c - 1) / c := by
  conv_lhs => rw [← Int.toNat_of_nonneg hT]
  exact ceilDiv_toNat T.toNat c hc

theorem ceilDivNat_bounds (t c : Nat) (hc : 0 < c) :
    t ≤ (t + c - 1) / c * c ∧ (t + c - 1) / c * c < t + c := by
  have h := Nat.div_add_mod (t + c - 1) c
  have hr : (t + c - 1) % c < c := Nat.mod_lt _ hc
  have h2 : (t + c - 1) / c * c = c * ((t + c - 1) / c) := Nat.mul_comm _ _
  rw [h2]
  set m := c * ((t + c - 1) / c) with hm
  set r := (t + c - 1) % c with hrr
  omega

theorem ceilDivNat_last (t c : Nat) (hc : 0 < c) (ht : 0 < t) :
    t - ((t + c - 1) / c - 1) * c = if t % c = 0 then c else t % c := by
  obtain ⟨a, r, hdiv, hmod, h, hrlt⟩ :
      ∃ a r, t / c = a ∧ t % c = r ∧ c * a + r = t ∧ r < c :=
    ⟨t / c, t % c, rfl, rfl, Nat.div_add_mod t c, Nat.mod_lt _ hc⟩
  obtain ⟨m, hm⟩ : ∃ m, c * a = m := ⟨_, rfl⟩
  have hmc : a * c = m := by rw [Nat.mul_comm]; exact hm
  rw [hm] at h
  rw [hmod]
  by_cases hr0 : r = 0
  · have ha1 : 1 ≤ a := by
      rcases Nat.eq_zero_or_pos a with h0 | h1
      · exfalso
        rw [h0, Nat.mul_zero] at hm
        omega
      · exact h1
    have hca : c ≤ m := by
      calc c = c * 1 := by ring
      _ ≤ c * a := Nat.mul_le_mul_left c ha1
      _ = m := hm
    have hn : (t + c - 1) / c = a := by
      apply Nat.div_eq_of_lt_le
      · rw [hmc]
        omega
      · have e1 : (a + 1) * c = m + c := by rw [← hmc]; ring
        rw [e1]
        omega
    rw [hn, if_pos hr0]
    have e3 : (a - 1) * c = m - c := by
      rw [Nat.sub_mul, hmc, Nat.one_mul]
    rw [e3]
    omega
  · have hn : (t + c - 1) / c = a + 1 := by
      apply Nat.div_eq_of_lt_le
      · have e1 : (a + 1) * c = m + c := by rw [← hmc]; ring
        rw [e1]
        omega
      · have e2 : (a + 1 + 1) * c = m + 2 * c := by rw [← hmc]; ring
        rw [e2]
        omega
    rw [hn, if_neg hr0, Nat.add_sub_cancel, hmc]
    omega


theorem length_initChunksWith (C : Nat) (lp : String) (T : Int) :
    (initChunksWith C lp T).length = (ceilDiv T C).toNat := by
  simp [initChunksWith]

theorem initChunksWith_get? (C : Nat) (lp : String) (T : Int) (i : Nat)
    (h : i < (ceilDiv T C).toNat) :
    (initChunksWith C lp T).get? i =
      some { index := i
             start := i * C
             stop := min (i * C + C) T.toNat
             size := min (i * C + C) T.toNat - i * C
             status := ChunkStatus.pending
             localFile := lp ++ ".chunk" ++ toString i } := by
  simp [initChunksWith, List.get?_eq_getElem?, List.getElem?_map, List.getElem?_range, h]

theorem map_size_initChunksWith (C : Nat) (lp : String) (T : Int) :
    (initChunksWith C lp T).map Chunk.size =
      (List.range (ceilDiv T C).toNat).map (fun i => min (i * C + C) T.toNat - i * C) := by
  simp [initChunksWith, List.map_map]

theorem sum_sizes_range (C t : Nat) (n : Nat) :
    (((List.range n).map (fun i => min (i * C + C) t - i * C)).sum) = min (n * C) t := by
  induction n with
  | zero => simp
  | succ n ih =>
      rw [List.range_succ, List.map_append, List.sum_append, ih]
      simp only [List.map_cons, List.map_nil, List.sum_cons, List.sum_nil]
      have e1 : (n + 1) * C = n * C + C := by ring
      rw [e1]
      obtain ⟨m, hm⟩ : ∃ m, n * C = m := ⟨_, rfl⟩
      rw [hm]
      omega

theorem sum_sizes_initChunksWith (C : Nat) (lp : String) (T : Int) (hC : 0 < C) :
    ((initChunksWith C lp T).map Chunk.size).sum = T.toNat := by
  rcases le_or_lt T 0 with hT | hT
  · rw [map_size_initChunksWith, ceilDiv_nonpos T C hT]
    simp only [List.range_zero, List.map_nil, List.sum_nil]
    omega

  · rw [map_size_initChunksWith, sum_sizes_range, ceilDiv_toNat_int T C hT.le hC]
    have hb := (ceilDivNat_bounds T.toNat C hC).1
    omega


theorem mid_chunk_le (t C i : Nat) (hC : 0 < C) (hi : i + 1 < (t + C - 1) / C) :
    i * C + C ≤ t := by
  have hb := ceilDivNat_bounds t C hC
  have h1 : (i + 1 + 1) * C ≤ (t + C - 1) / C * C :=
    Nat.mul_le_mul_right C (by omega)
  have e2 : (i + 1 + 1) * C = i * C + C + C := by ring
  obtain ⟨m, hm⟩ : ∃ m, (t + C - 1) / C * C = m := ⟨_, rfl⟩
  rw [hm] at hb h1
  rw [e2] at h1
  omega

theorem start_lt (t C i : Nat) (hC : 0 < C) (hi : i < (t + C - 1) / C) :
    i * C < t := by
  have hb := ceilDivNat_bounds t C hC
  have h1 : (i + 1) * C ≤ (t + C - 1) / C * C :=
    Nat.mul_le_mul_right C (by omega)
  have e2 : (i + 1) * C = i * C + C := by ring
  obtain ⟨m, hm⟩ : ∃ m, (t + C - 1) / C * C = m := ⟨_, rfl⟩
  rw [hm] at hb h1
  rw [e2] at h1
  omega

/-- C1 helper: the number of chunks of the planner for a positive size. -/
theorem length_initChunksWith_pos (C : Nat) (lp : String) (T : Int)
    (hC : 0 < C) (hT : 0 ≤ T) :
    (initChunksWith C lp T).length = (T.toNat + C - 1) / C := by
  rw [length_initChunksWith, ceilDiv_toNat_int T C hT hC]

/-- C1: for every `totalSize > 0` and chunk size `C > 0`, the planner yields
`ceil(totalSize / C)` chunks whose `index` equals their position, whose ranges
`[i*C, min(i*C + C, totalSize))` tile `[0, totalSize)` contiguously (each
chunk's `start` is the previous chunk's `stop`, and every offset below
`totalSize` lies in exactly one chunk), with every chunk of size `C` except
the last, whose size is `totalSize mod C` (or `C` when `C` divides evenly),
and with the sizes summing to `totalSize`. -/
theorem chunkPlanner_partition (lp : String) (C : Nat) (T : Int)
    (hC : 0 < C) (hT : 0 < T) :
    (initChunksWith C lp T).length = (T.toNat + C - 1) / C ∧
    (∀ i c, (initChunksWith C lp T).get? i = some c →
        c.index = i ∧ c.start = i * C ∧ c.stop = min (i * C + C) T.toNat ∧
          c.size = c.stop - c.start) ∧
    (∀ i c c', (initChunksWith C lp T).get? i = some c →
        (initChunksWith C lp T).get? (i + 1) = some c' → c'.start = c.stop) ∧
    (∀ i c, (initChunksWith C lp T).get? i = some c →
        i + 1 < (initChunksWith C lp T).length → c.size = C) ∧
    (∀ c, (initChunksWith C lp T).get? ((initChunksWith C lp T).length - 1) = some c →
        c.size = if T.toNat % C = 0 then C else T.toNat % C) ∧
    ((initChunksWith C lp T).map Chunk.size).sum = T.toNat ∧
    (∀ off, off < T.toNat →
      ∃! i, ∃ c, (initChunksWith C lp T).get? i = some c ∧ c.start ≤ off ∧ off < c.stop) := by
  have ht : 0 < T.toNat := by omega
  have hlen := length_initChunksWith_pos C lp T hC hT.le
  have hb := ceilDivNat_bounds T.toNat C hC
  have hcd : (ceilDiv T C).toNat = (T.toNat + C - 1) / C := ceilDiv_toNat_int T C hT.le hC
  have hnpos : 0 < (T.toNat + C - 1) / C := by
    rcases Nat.eq_zero_or_pos ((T.toNat + C - 1) / C) with h0 | h1
    · rw [h0] at hb
      simp at hb
      omega
    · exact h1
  have hget : ∀ i c, (initChunksWith C lp T).get? i = some c →
      i < (T.toNat + C - 1) / C ∧
      c = { index := i
            start := i * C
            stop := min (i * C + C) T.toNat
            size := min (i * C + C) T.toNat - i * C
            status := ChunkStatus.pending
            localFile := lp ++ ".chunk" ++ toString i } := by
    intro i c hgc
    have hi : i < (initChunksWith C lp T).length := (List.get?_eq_some.mp hgc).1
    rw [hlen] at hi
    rw [initChunksWith_get? C lp T i (by rw [hcd]; exact hi)] at hgc
    exact ⟨hi, by injection hgc with h; exact h.symm⟩
  refine ⟨hlen, ?_, ?_, ?_, ?_, sum_sizes_initChunksWith C lp T hC, ?_⟩
  · intro i c hgc
    obtain ⟨hi, rfl⟩ := hget i c hgc
    exact ⟨rfl, rfl, rfl, rfl⟩
  · intro i c c' hgc hgc'
    obtain ⟨hi, rfl⟩ := hget i c hgc
    obtain ⟨hi', rfl⟩ := hget (i + 1) c' hgc'
    have hfit : i * C + C ≤ T.toNat := mid_chunk_le T.toNat C i hC hi'
    have e1 : (i + 1) * C = i * C + C := by ring
    simp only
    rw [e1]
    omega
  · intro i c hgc hilt
    obtain ⟨hi, rfl⟩ := hget i c hgc
    rw [hlen] at hilt
    have hfit : i * C + C ≤ T.toNat := mid_chunk_le T.toNat C i hC hilt
    simp only
    omega
  · intro c hgc
    rw [hlen] at hgc
    obtain ⟨hi, rfl⟩ := hget _ c hgc
    simp only
    have hlast : ((T.toNat + C - 1) / C - 1) * C + C = (T.toNat + C - 1) / C * C := by
      have e : ((T.toNat + C - 1) / C - 1) * C = (T.toNat + C - 1) / C * C - 1 * C :=
        Nat.sub_mul _ 1 C
      have h1 : 1 * C ≤ (T.toNat + C - 1) / C * C := Nat.mul_le_mul_right C hnpos
      omega
    rw [← ceilDivNat_last T.toNat C hC ht]
    obtain ⟨m, hm⟩ : ∃ m, (T.toNat + C - 1) / C * C = m := ⟨_, rfl⟩
    rw [hm] at hlast hb
    omega
  · intro off hoff
    have hi0 : off / C < (T.toNat + C - 1) / C := by
      rw [Nat.div_lt_iff_lt_mul hC]
      omega
    refine ⟨off / C, ⟨_, initChunksWith_get? C lp T (off / C) (by rw [hcd]; exact hi0), ?_, ?_⟩, ?_⟩
    · show off / C * C ≤ off
      exact Nat.div_mul_le_self off C
    · show off < min (off / C * C + C) T.toNat
      have hdm := Nat.div_add_mod off C
      have hmlt : off % C < C := Nat.mod_lt _ hC
      obtain ⟨m, hm⟩ : ∃ m, C * (off / C) = m := ⟨_, rfl⟩
      have hm2 : off / C * C = m := by rw [Nat.mul_comm]; exact hm
      rw [hm] at hdm
      rw [hm2]
      omega
    · intro j hj
      obtain ⟨c', hgc', hle', hlt'⟩ := hj
      obtain ⟨hj', rfl⟩ := hget j c' hgc'
      simp only at hle' hlt'
      have : off / C = j := by
        apply Nat.div_eq_of_lt_le hle'
        have e : (j + 1) * C = j * C + C := by ring
        rw [e]
        omega
      omega

/-! ## Worker pool bounds (claim C6) -/

theorem step_workers_length {s s' : RunState} (h : Step s s') :
    s'.workers.length = s.workers.length := by
  cases h <;> simp [List.length_set]

theorem step_queue_monotone {s s' : RunState} (h : Step s s') :
    s'.queue.length ≤ s.queue.length := by
  cases h with
  | dequeue w i rest hw hg hq => simp [hq]
  | _ => simp

theorem reaches_workers_length (j : DownloadJob) (now : Int) (s : RunState)
    (h : Reaches (startRun j now) s) :
    s.workers.length = min MAX_CONCURRENCY j.chunks.length := by
  induction h with
  | refl => simp [startRun]
  | tail h1 h2 ih => rw [step_workers_length h2, ih]

theorem inFlight_le_workers (s : RunState) : inFlight s ≤ s.workers.length :=
  List.length_filterMap_le _ _

/-- C6: for every job, at most `MAX_CONCURRENCY` chunk fetches are in flight in
any state reachable from `start()`: the pool has exactly
`min(MAX_CONCURRENCY, chunks.length)` worker slots throughout, each holding at
most one in-flight fetch. -/
theorem worker_bound (j : DownloadJob) (now : Int) (s : RunState)
    (h : Reaches (startRun j now) s) :
    s.workers.length = min MAX_CONCURRENCY j.chunks.length ∧
    inFlight s ≤ min MAX_CONCURRENCY j.chunks.length ∧
    inFlight s ≤ MAX_CONCURRENCY := by
  have hlen := reaches_workers_length j now s h
  have hle := inFlight_le_workers s
  refine ⟨hlen, by omega, by omega⟩

/-- Witness for `worker_bound` at a concrete reachable state: a freshly
started 120 MiB job. -/
theorem worker_bound_witness :
    (Reaches (startRun (DownloadJob.new "dl_1" "/sdcard/a.bin" "/tmp/a.bin" (120 * 1024 * 1024)) 0)
        (startRun (DownloadJob.new "dl_1" "/sdcard/a.bin" "/tmp/a.bin" (120 * 1024 * 1024)) 0)) ∧
    ((startRun (DownloadJob.new "dl_1" "/sdcard/a.bin" "/tmp/a.bin" (120 * 1024 * 1024)) 0).workers.length
        = min MAX_CONCURRENCY (DownloadJob.new "dl_1" "/sdcard/a.bin" "/tmp/a.bin" (120 * 1024 * 1024)).chunks.length ∧
      inFlight (startRun (DownloadJob.new "dl_1" "/sdcard/a.bin" "/tmp/a.bin" (120 * 1024 * 1024)) 0)
        ≤ min MAX_CONCURRENCY (DownloadJob.new "dl_1" "/sdcard/a.bin" "/tmp/a.bin" (120 * 1024 * 1024)).chunks.length ∧
      inFlight (startRun (DownloadJob.new "dl_1" "/sdcard/a.bin" "/tmp/a.bin" (120 * 1024 * 1024)) 0)
        ≤ MAX_CONCURRENCY) :=
  ⟨Relation.ReflTransGen.refl,
   worker_bound (DownloadJob.new "dl_1" "/sdcard/a.bin" "/tmp/a.bin" (120 * 1024 * 1024)) 0 _
     Relation.ReflTransGen.refl⟩

/-! ## Chunk status update lemmas -/

theorem setChunkStatus_get?_ne (chunks : List Chunk) (i : Nat) (st : ChunkStatus)
    (j : Nat) (hne : i ≠ j) : (setChunkStatus chunks i st).get? j = chunks.get? j := by
  unfold setChunkStatus
  cases hgi : chunks.get? i with
  | none => rfl
  | some c => simp [List.get?_eq_getElem?, List.getElem?_set_ne hne]

theorem setChunkStatus_get?_self (chunks : List Chunk) (i : Nat) (st : ChunkStatus)
    (c : Chunk) (hc : chunks.get? i = some c) :
    (setChunkStatus chunks i st).get? i = some { c with status := st } := by
  unfold setChunkStatus
  rw [hc]
  have hi : i < chunks.length := (List.get?_eq_some.mp hc).1
  simp [List.get?_eq_getElem?, List.getElem?_set_self, hi]

theorem set_eq_self_of_get? {α : Type} (l : List α) (j : Nat) (v : α)
    (h : l.get? j = some v) : l.set j v = l := by
  apply List.ext_getElem?
  intro i
  rcases eq_or_ne i j with rfl | hne
  · rw [List.getElem?_set_self (List.get?_eq_some.mp h).1, ← List.get?_eq_getElem?]
    exact h.symm
  · rw [List.getElem?_set_ne hne.symm]

theorem setChunkStatus_map_chunkData (chunks : List Chunk) (i : Nat) (st : ChunkStatus) :
    (setChunkStatus chunks i st).map chunkData = chunks.map chunkData := by
  unfold setChunkStatus
  cases hgi : chunks.get? i with
  | none => rfl
  | some c =>
      rw [List.map_set]
      have hdata : chunkData { c with status := st } = chunkData c := rfl
      rw [hdata]
      apply set_eq_self_of_get?
      rw [List.get?_eq_getElem?, List.getElem?_map, ← List.get?_eq_getElem?, hgi]
      rfl

theorem setChunkStatus_length (chunks : List Chunk) (i : Nat) (st : ChunkStatus) :
    (setChunkStatus chunks i st).length = chunks.length := by
  unfold setChunkStatus
  cases hgi : chunks.get? i with
  | none => rfl
  | some c => simp [List.length_set]

theorem setChunkStatus_cons_zero (x : Chunk) (xs : List Chunk) (st : ChunkStatus) :
    setChunkStatus (x :: xs) 0 st = { x with status := st } :: xs := by
  simp [setChunkStatus, List.set]

theorem setChunkStatus_cons_succ (x : Chunk) (xs : List Chunk) (k : Nat) (st : ChunkStatus) :
    setChunkStatus (x :: xs) (k + 1) st = x :: setChunkStatus xs k st := by
  unfold setChunkStatus
  have hq : (x :: xs).get? (k + 1) = xs.get? k := rfl
  rw [hq]
  cases hgk : xs.get? k with
  | none => rfl
  | some c => simp [List.set]

theorem completed_stats_set (chunks : List Chunk) (i : Nat) (c : Chunk) (st : ChunkStatus)
    (hc : chunks.get? i = some c) (hcold : ¬ c.status = ChunkStatus.completed) :
    (((setChunkStatus chunks i st).filter (fun x => x.status == ChunkStatus.completed)).length
       = ((chunks.filter (fun x => x.status == ChunkStatus.completed)).length
         + (if st = ChunkStatus.completed then 1 else 0))) ∧
    (completedSizes (setChunkStatus chunks i st)
       = completedSizes chunks + (if st = ChunkStatus.completed then c.size else 0)) := by
  induction chunks generalizing i with
  | nil => simp at hc
  | cons x xs ih =>
      cases i with
      | zero =>
          have hcx : x = c := by
            have : (x :: xs).get? 0 = some x := rfl
            rw [this] at hc
            injection hc
          subst hcx
          rw [setChunkStatus_cons_zero]
          unfold completedSizes
          by_cases hst : st = ChunkStatus.completed
          · subst hst
            simp [List.filter_cons, hcold]
            omega
          · have hxne : (x.status == ChunkStatus.completed) = false := by
              simp [hcold]
            have hstne : (({ x with status := st } : Chunk).status == ChunkStatus.completed) = false := by
              simp [hst]
            simp [List.filter_cons, hxne, hstne, hst]
      | succ k =>
          have hck : xs.get? k = some c := hc
          rw [setChunkStatus_cons_succ]
          have hrec := ih k hck
          unfold completedSizes at hrec ⊢
          by_cases hx : (x.status == ChunkStatus.completed) = true
          · simp only [List.filter_cons, hx, if_pos, List.length_cons, List.map_cons,
              List.sum_cons]
            omega
          · have hx' : (x.status == ChunkStatus.completed) = false := by
              simpa using hx
            simp only [List.filter_cons, hx', Bool.false_eq_true, if_false]
            exact hrec

/-! ## Run invariant (claims C8, C4, C5, C10) -/

theorem updateSpeed_chunks (j : DownloadJob) (now : Int) :
    (j.updateSpeed now).chunks = j.chunks := by
  unfold DownloadJob.updateSpeed
  dsimp only
  split <;> rfl

theorem updateSpeed_completedChunks (j : DownloadJob) (now : Int) :
    (j.updateSpeed now).completedChunks = j.completedChunks := by
  unfold DownloadJob.updateSpeed
  dsimp only
  split <;> rfl

theorem updateSpeed_bytesDownloaded (j : DownloadJob) (now : Int) :
    (j.updateSpeed now).bytesDownloaded = j.bytesDownloaded := by
  unfold DownloadJob.updateSpeed
  dsimp only
  split <;> rfl

theorem updateSpeed_status (j : DownloadJob) (now : Int) :
    (j.updateSpeed now).status = j.status := by
  unfold DownloadJob.updateSpeed
  dsimp only
  split <;> rfl

/-- The state facts of a running job preserved by every worker-pool step:
chunk data never changes, the two counters track the completed chunk set, the
queue holds pending chunks without duplicates, and each in-flight chunk is
held by exactly one worker and is marked `downloading`. -/
structure RunInv (init : List Chunk) (s : RunState) : Prop where
  chunksData : s.job.chunks.map chunkData = init.map chunkData
  count : s.job.completedChunks
      = (s.job.chunks.filter (fun c => c.status == ChunkStatus.completed)).length
  bytes : s.job.bytesDownloaded = completedSizes s.job.chunks
  queuePending : ∀ i ∈ s.queue,
      ∃ c, s.job.chunks.get? i = some c ∧ c.status = ChunkStatus.pending
  fetchDownloading : ∀ w i, s.workers.get? w = some (Worker.fetching i) →
      ∃ c, s.job.chunks.get? i = some c ∧ c.status = ChunkStatus.downloading
  queueNodup : s.queue.Nodup
  fetchDistinct : ∀ w w' i, s.workers.get? w = some (Worker.fetching i) →
      s.workers.get? w' = some (Worker.fetching i) → w = w'

theorem get?_set_cases {α : Type} {l : List α} {w : Nat} {x : α} {w' : Nat} {y : α}
    (h : (l.set w x).get? w' = some y) :
    (w = w' ∧ y = x) ∨ (w ≠ w' ∧ l.get? w' = some y) := by
  rcases eq_or_ne w w' with rfl | hne
  · left
    refine ⟨rfl, ?_⟩
    rw [List.get?_eq_getElem?] at h
    by_cases hlt : w < l.length
    · rw [List.getElem?_set_self hlt] at h
      injection h with h
      exact h.symm
    · rw [List.set_eq_of_length_le (le_of_not_lt hlt), ← List.get?_eq_getElem?,
        List.get?_len_le (le_of_not_lt hlt)] at h
      exact absurd h (by simp)
  · right
    refine ⟨hne, ?_⟩
    rw [List.get?_eq_getElem?, List.getElem?_set_ne hne] at h
    rw [List.get?_eq_getElem?]
    exact h

theorem get?_set_ne {α : Type} (l : List α) (w w' : Nat) (x : α) (hne : w ≠ w') :
    (l.set w x).get? w' = l.get? w' := by
  rw [List.get?_eq_getElem?, List.getElem?_set_ne hne, ← List.get?_eq_getElem?]

theorem step_runInv {init : List Chunk} {s s' : RunState}
    (h : Step s s') (hinv : RunInv init s) : RunInv init s' := by
  cases h with
  | guardExit w hw hg =>
      refine ⟨hinv.chunksData, hinv.count, hinv.bytes, hinv.queuePending, ?_,
        hinv.queueNodup, ?_⟩
      · intro w' i hw'
        rcases get?_set_cases hw' with ⟨rfl, hx⟩ | ⟨hne, hold⟩
        · exact absurd hx (by simp)
        · exact hinv.fetchDownloading w' i hold
      · intro w1 w2 i hw1 hw2
        rcases get?_set_cases hw1 with ⟨rfl, hx⟩ | ⟨hne1, hold1⟩
        · exact absurd hx (by simp)
        rcases get?_set_cases hw2 with ⟨rfl, hx⟩ | ⟨hne2, hold2⟩
        · exact absurd hx (by simp)
        exact hinv.fetchDistinct w1 w2 i hold1 hold2
  | dequeue w i rest hw hg hq =>
      obtain ⟨c, hci, hcp⟩ := hinv.queuePending i (by rw [hq]; exact List.mem_cons_self i rest)
      have hnodup := hinv.queueNodup
      rw [hq] at hnodup
      have hinotrest : i ∉ rest := (List.nodup_cons.mp hnodup).1
      have hstats := completed_stats_set s.job.chunks i c ChunkStatus.downloading hci
        (by rw [hcp]; simp)
      refine ⟨?_, ?_, ?_, ?_, ?_, ?_, ?_⟩
      · rw [setChunkStatus_map_chunkData]
        exact hinv.chunksData
      · rw [hstats.1]
        simpa using hinv.count
      · rw [hstats.2]
        simpa using hinv.bytes
      · intro j hj
        have hjq : j ∈ s.queue := by rw [hq]; exact List.mem_cons_of_mem i hj
        obtain ⟨c', hc', hp'⟩ := hinv.queuePending j hjq
        have hjne : i ≠ j := fun he => hinotrest (he ▸ hj)
        exact ⟨c', by rw [setChunkStatus_get?_ne _ _ _ _ hjne]; exact hc', hp'⟩
      · intro w' i' hw'
        rcases get?_set_cases hw' with ⟨rfl, hx⟩ | ⟨hne, hold⟩
        · have hii : i' = i := by injection hx
          subst hii
          exact ⟨{ c with status := ChunkStatus.downloading },
            setChunkStatus_get?_self _ _ _ _ hci, rfl⟩
        · obtain ⟨c', hc', hd'⟩ := hinv.fetchDownloading w' i' hold
          have hine : i ≠ i' := by
            intro he
            subst he
            rw [hci] at hc'
            injection hc' with hc'
            rw [← hc'] at hd'
            rw [hcp] at hd'
            exact absurd hd' (by simp)
          exact ⟨c', by rw [setChunkStatus_get?_ne _ _ _ _ hine]; exact hc', hd'⟩
      · exact (List.nodup_cons.mp hnodup).2
      · intro w1 w2 i' hw1 hw2
        rcases get?_set_cases hw1 with ⟨rfl, hx1⟩ | ⟨hne1, hold1⟩
        · rcases get?_set_cases hw2 with ⟨rfl, hx2⟩ | ⟨hne2, hold2⟩
          · rfl
          · exfalso
            have hii : i' = i := by injection hx1
            subst hii
            obtain ⟨c', hc', hd'⟩ := hinv.fetchDownloading w2 i' hold2
            rw [hci] at hc'
            injection hc' with hc'
            rw [← hc'] at hd'
            rw [hcp] at hd'
            exact absurd hd' (by simp)
        · rcases get?_set_cases hw2 with ⟨rfl, hx2⟩ | ⟨hne2, hold2⟩
          · exfalso
            have hii : i' = i := by injection hx2
            subst hii
            obtain ⟨c', hc', hd'⟩ := hinv.fetchDownloading w1 i' hold1
            rw [hci] at hc'
            injection hc' with hc'
            rw [← hc'] at hd'
            rw [hcp] at hd'
            exact absurd hd' (by simp)
          · exact hinv.fetchDistinct w1 w2 i' hold1 hold2
  | fetchOk w i c r fs now hw hc hr =>
      obtain ⟨c0, hc0, hdl⟩ := hinv.fetchDownloading w i hw
      rw [hc] at hc0
      injection hc0 with hc0
      rw [← hc0] at hdl
      have hstats := completed_stats_set s.job.chunks i c ChunkStatus.completed hc
        (by rw [hdl]; simp)
      refine ⟨?_, ?_, ?_, ?_, ?_, hinv.queueNodup, ?_⟩
      · rw [updateSpeed_chunks]
        show (setChunkStatus s.job.chunks i ChunkStatus.completed).map chunkData = _
        rw [setChunkStatus_map_chunkData]
        exact hinv.chunksData
      · rw [updateSpeed_completedChunks, updateSpeed_chunks]
        show s.job.completedChunks + 1 = _
        rw [hstats.1]
        simp [hinv.count]
      · rw [updateSpeed_bytesDownloaded, updateSpeed_chunks]
        show s.job.bytesDownloaded + c.size = _
        rw [hstats.2]
        simp [hinv.bytes]
      · intro j hj
        obtain ⟨c', hc', hp'⟩ := hinv.queuePending j hj
        have hine : i ≠ j := by
          intro he
          subst he
          rw [hc] at hc'
          injection hc' with hc'
          rw [← hc'] at hp'
          rw [hdl] at hp'
          exact absurd hp' (by simp)
        rw [updateSpeed_chunks]
        exact ⟨c', by
          show (setChunkStatus s.job.chunks i ChunkStatus.completed).get? j = some c'
          rw [setChunkStatus_get?_ne _ _ _ _ hine]
          exact hc', hp'⟩
      · intro w' i' hw'
        rcases get?_set_cases hw' with ⟨rfl, hx⟩ | ⟨hne, hold⟩
        · exact absurd hx (by simp)
        · obtain ⟨c', hc', hd'⟩ := hinv.fetchDownloading w' i' hold
          have hine : i ≠ i' := by
            intro he
            subst he
            exact hne (hinv.fetchDistinct w w' i hw hold)
          rw [updateSpeed_chunks]
          exact ⟨c', by
            show (setChunkStatus s.job.chunks i ChunkStatus.completed).get? i' = some c'
            rw [setChunkStatus_get?_ne _ _ _ _ hine]
            exact hc', hd'⟩
      · intro w1 w2 i' hw1 hw2
        rcases get?_set_cases hw1 with ⟨rfl, hx1⟩ | ⟨hne1, hold1⟩
        · exact absurd hx1 (by simp)
        rcases get?_set_cases hw2 with ⟨rfl, hx2⟩ | ⟨hne2, hold2⟩
        · exact absurd hx2 (by simp)
        exact hinv.fetchDistinct w1 w2 i' hold1 hold2
  | fetchErr w i c r fs msg hw hc hr =>
      obtain ⟨c0, hc0, hdl⟩ := hinv.fetchDownloading w i hw
      rw [hc] at hc0
      injection hc0 with hc0
      rw [← hc0] at hdl
      have hstats := completed_stats_set s.job.chunks i c ChunkStatus.error hc
        (by rw [hdl]; simp)
      refine ⟨?_, ?_, ?_, ?_, ?_, hinv.queueNodup, ?_⟩
      · show (setChunkStatus s.job.chunks i ChunkStatus.error).map chunkData = _
        rw [setChunkStatus_map_chunkData]
        exact hinv.chunksData
      · show s.job.completedChunks = _
        rw [hstats.1]
        simpa using hinv.count
      · show s.job.bytesDownloaded = _
        rw [hstats.2]
        simpa using hinv.bytes
      · intro j hj
        obtain ⟨c', hc', hp'⟩ := hinv.queuePending j hj
        have hine : i ≠ j := by
          intro he
          subst he
          rw [hc] at hc'
          injection hc' with hc'
          rw [← hc'] at hp'
          rw [hdl] at hp'
          exact absurd hp' (by simp)
        exact ⟨c', by
          show (setChunkStatus s.job.chunks i ChunkStatus.error).get? j = some c'
          rw [setChunkStatus_get?_ne _ _ _ _ hine]
          exact hc', hp'⟩
      · intro w' i' hw'
        rcases get?_set_cases hw' with ⟨rfl, hx⟩ | ⟨hne, hold⟩
        · exact absurd hx (by simp)
        · obtain ⟨c', hc', hd'⟩ := hinv.fetchDownloading w' i' hold
          have hine : i ≠ i' := by
            intro he
            subst he
            exact hne (hinv.fetchDistinct w w' i hw hold)
          exact ⟨c', by
            show (setChunkStatus s.job.chunks i ChunkStatus.error).get? i' = some c'
            rw [setChunkStatus_get?_ne _ _ _ _ hine]
            exact hc', hd'⟩
      · intro w1 w2 i' hw1 hw2
        rcases get?_set_cases hw1 with ⟨rfl, hx1⟩ | ⟨hne1, hold1⟩
        · exact absurd hx1 (by simp)
        rcases get?_set_cases hw2 with ⟨rfl, hx2⟩ | ⟨hne2, hold2⟩
        · exact absurd hx2 (by simp)
        exact hinv.fetchDistinct w1 w2 i' hold1 hold2
  | pause =>
      exact ⟨hinv.chunksData, hinv.count, hinv.bytes, hinv.queuePending,
        hinv.fetchDownloading, hinv.queueNodup, hinv.fetchDistinct⟩
  | cancel =>
      exact ⟨hinv.chunksData, hinv.count, hinv.bytes, hinv.queuePending,
        hinv.fetchDownloading, hinv.queueNodup, hinv.fetchDistinct⟩

theorem initChunksWith_all_pending (C : Nat) (lp : String) (T : Int) :
    ∀ c ∈ initChunksWith C lp T, c.status = ChunkStatus.pending := by
  intro c hc
  rw [initChunksWith] at hc
  simp only [List.mem_map, List.mem_range] at hc
  obtain ⟨i, _, rfl⟩ := hc
  rfl

theorem initChunks_filter_completed (C : Nat) (lp : String) (T : Int) :
    (initChunksWith C lp T).filter (fun c => c.status == ChunkStatus.completed) = [] := by
  rw [List.filter_eq_nil_iff]
  intro c hc
  rw [initChunksWith_all_pending C lp T c hc]
  simp

theorem runInv_startRun (jobId rp lp : String) (T : Int) (now : Int) :
    RunInv (initChunks lp T) (startRun (DownloadJob.new jobId rp lp T) now) := by
  have hall := initChunksWith_all_pending CHUNK_SIZE lp T
  have hrep : ∀ w i, (startRun (DownloadJob.new jobId rp lp T) now).workers.get? w
      = some (Worker.fetching i) → False := by
    intro w i hw
    rw [startRun] at hw
    simp only [List.get?_eq_getElem?, List.getElem?_replicate] at hw
    split at hw
    · injection hw with hw
      exact absurd hw (by simp)
    · exact absurd hw (by simp)
  refine ⟨rfl, ?_, ?_, ?_, ?_, ?_, ?_⟩
  · show 0 = _
    rw [show (startRun (DownloadJob.new jobId rp lp T) now).job.chunks = initChunks lp T from rfl]
    rw [initChunks, initChunks_filter_completed]
    rfl
  · show 0 = _
    rw [show (startRun (DownloadJob.new jobId rp lp T) now).job.chunks = initChunks lp T from rfl]
    rw [completedSizes, initChunks, initChunks_filter_completed]
    rfl
  · intro i hi
    rw [startRun] at hi
    simp only [List.mem_range] at hi
    have hget : (initChunks lp T).get? i = some ((initChunks lp T).get ⟨i, hi⟩) :=
      List.get?_eq_get hi
    refine ⟨(initChunks lp T).get ⟨i, hi⟩, hget, ?_⟩
    exact hall _ (List.get_mem (initChunks lp T) i hi)
  · intro w i hw
    exact absurd (hrep w i hw) (by simp)
  · exact List.nodup_range _
  · intro w1 w2 i hw1 hw2
    exact absurd (hrep w1 i hw1) (by simp)

theorem reaches_runInv {jobId rp lp : String} {T now : Int} {s : RunState}
    (h : Reaches (startRun (DownloadJob.new jobId rp lp T) now) s) :
    RunInv (initChunks lp T) s := by
  induction h with
  | refl => exact runInv_startRun jobId rp lp T now
  | tail h1 h2 ih => exact step_runInv h2 ih

theorem map_size_eq_of_chunkData {l l' : List Chunk}
    (h : l.map chunkData = l'.map chunkData) :
    l.map Chunk.size = l'.map Chunk.size := by
  have e : ∀ (m : List Chunk),
      m.map Chunk.size = (m.map chunkData).map (fun q => q.2.2.2.1) := by
    intro m
    rw [List.map_map]
    rfl
  rw [e, h, ← e]

/-- C8: in every reachable state of a running job, `bytesDownloaded` equals
the sum of the sizes of the chunks marked `completed`; and whenever
`completedChunks` equals the total chunk count (in particular right before the
merge step runs), `bytesDownloaded` equals the total size. -/
theorem bytes_invariant (jobId rp lp : String) (T : Int) (now : Int) (s : RunState)
    (h : Reaches (startRun (DownloadJob.new jobId rp lp T) now) s) :
    s.job.bytesDownloaded = completedSizes s.job.chunks ∧
    (s.job.completedChunks = s.job.chunks.length →
      s.job.bytesDownloaded = T.toNat) := by
  have hinv := reaches_runInv h
  refine ⟨hinv.bytes, ?_⟩
  intro hall
  have hflen : (s.job.chunks.filter (fun c => c.status == ChunkStatus.completed)).length
      = s.job.chunks.length := by
    rw [← hinv.count, hall]
  have hallc : ∀ c ∈ s.job.chunks, c.status == ChunkStatus.completed :=
    List.filter_length_eq_length.mp hflen
  have hfilter_self : s.job.chunks.filter (fun c => c.status == ChunkStatus.completed)
      = s.job.chunks := List.filter_eq_self.mpr hallc
  rw [hinv.bytes, completedSizes, hfilter_self,
    map_size_eq_of_chunkData hinv.chunksData, initChunks]
  exact sum_sizes_initChunksWith CHUNK_SIZE lp T (by norm_num [CHUNK_SIZE])

/-- Witness for `bytes_invariant`: the freshly started state of an empty job,
where both counters are zero. -/
theorem bytes_invariant_witness :
    ((startRun (DownloadJob.new "dl_1" "/sdcard/a.bin" "/tmp/a.bin" 0) 0).job.bytesDownloaded
        = completedSizes (startRun (DownloadJob.new "dl_1" "/sdcard/a.bin" "/tmp/a.bin" 0) 0).job.chunks ∧
      ((startRun (DownloadJob.new "dl_1" "/sdcard/a.bin" "/tmp/a.bin" 0) 0).job.completedChunks
          = (startRun (DownloadJob.new "dl_1" "/sdcard/a.bin" "/tmp/a.bin" 0) 0).job.chunks.length →
        (startRun (DownloadJob.new "dl_1" "/sdcard/a.bin" "/tmp/a.bin" 0) 0).job.bytesDownloaded
          = (0 : Int).toNat)) :=
  bytes_invariant "dl_1" "/sdcard/a.bin" "/tmp/a.bin" 0 0 _ Relation.ReflTransGen.refl

/-! ## File system and merge lemmas (claims C2, C9) -/

theorem fsGet_fsDelete_self (fs : FileSys) (x : String) :
    fsGet (fsDelete fs x) x = none := by
  induction fs with
  | nil => rfl
  | cons p fs ih =>
      obtain ⟨n, d⟩ := p
      rw [fsDelete, List.filter_cons]
      by_cases hx : n = x
      · simp only [hx, bne_self_eq_false, Bool.false_eq_true, if_false]
        exact ih
      · simp only [bne_iff_ne, ne_eq, hx, not_false_eq_true, if_true]
        rw [fsGet]
        simp only [hx, if_false]
        exact ih

theorem fsGet_fsDelete_ne (fs : FileSys) (x y : String) (hne : x ≠ y) :
    fsGet (fsDelete fs x) y = fsGet fs y := by
  induction fs with
  | nil => rfl
  | cons p fs ih =>
      obtain ⟨n, d⟩ := p
      rw [fsDelete, List.filter_cons]
      by_cases hx : n = x
      · simp only [hx, bne_self_eq_false, Bool.false_eq_true, if_false]
        rw [fsGet]
        simp only [show x ≠ y from hne, if_false]
        exact ih
      · simp only [bne_iff_ne, ne_eq, hx, not_false_eq_true, if_true]
        rw [fsGet, fsGet]
        by_cases hny : n = y
        · simp [hny]
        · simp only [hny, if_false]
          exact ih

theorem fsGet_fsDelete_none (fs : FileSys) (x y : String) (h : fsGet fs y = none) :
    fsGet (fsDelete fs x) y = none := by
  rcases eq_or_ne x y with rfl | hne
  · exact fsGet_fsDelete_self fs x
  · rw [fsGet_fsDelete_ne fs x y hne]
    exact h

theorem fsGet_fsSet_self (fs : FileSys) (n : String) (d : Bytes) :
    fsGet (fsSet fs n d) n = some d := by
  rw [fsSet, fsGet]
  simp

theorem fsGet_fsSet_ne (fs : FileSys) (n : String) (d : Bytes) (y : String)
    (hne : n ≠ y) : fsGet (fsSet fs n d) y = fsGet fs y := by
  rw [fsSet, fsGet]
  simp only [hne, if_false]
  exact fsGet_fsDelete_ne fs n y hne

theorem mergeFold_spec (chunks : List Chunk) (fs : FileSys) (acc0 : Bytes)
    (content : Chunk → Bytes)
    (hnodup : (chunks.map Chunk.localFile).Nodup)
    (hfiles : ∀ c ∈ chunks, fsGet fs c.localFile = some (content c)) :
    (mergeFold chunks (acc0, fs)).1 = acc0 ++ (chunks.map content).flatten ∧
    (∀ c ∈ chunks, fsGet (mergeFold chunks (acc0, fs)).2 c.localFile = none) ∧
    (∀ name, (∀ c ∈ chunks, c.localFile ≠ name) →
      fsGet (mergeFold chunks (acc0, fs)).2 name = fsGet fs name) := by
  induction chunks generalizing acc0 fs with
  | nil => exact ⟨by simp [mergeFold], by simp, fun name _ => rfl⟩
  | cons c cs ih =>
      have hhead : fsGet fs c.localFile = some (content c) :=
        hfiles c (List.mem_cons_self c cs)
      have hstep : mergeFold (c :: cs) (acc0, fs)
          = mergeFold cs (acc0 ++ content c, fsDelete fs c.localFile) := by
        rw [mergeFold, List.foldl_cons, hhead]
        rfl
      have hnames : ∀ c' ∈ cs, c'.localFile ≠ c.localFile := by
        intro c' hc' he
        have hmem : c.localFile ∈ cs.map Chunk.localFile :=
          he ▸ List.mem_map_of_mem Chunk.localFile hc'
        exact (List.nodup_cons.mp hnodup).1 hmem
      have hfiles' : ∀ c' ∈ cs, fsGet (fsDelete fs c.localFile) c'.localFile
          = some (content c') := by
        intro c' hc'
        rw [fsGet_fsDelete_ne fs c.localFile c'.localFile (fun he => hnames c' hc' he.symm)]
        exact hfiles c' (List.mem_cons_of_mem c hc')
      have hrec := ih (fsDelete fs c.localFile) (acc0 ++ content c)
        (List.nodup_cons.mp hnodup).2 hfiles'
      refine ⟨?_, ?_, ?_⟩
      · rw [hstep, hrec.1]
        simp
      · intro c' hc'
        rcases List.mem_cons.mp hc' with rfl | hmem
        · rw [hstep, hrec.2.2 c'.localFile (fun c'' hc'' => hnames c'' hc'')]
          exact fsGet_fsDelete_self fs c'.localFile
        · rw [hstep]
          exact hrec.2.1 c' hmem
      · intro name hname
        rw [hstep, hrec.2.2 name (fun c'' hc'' => hname c'' (List.mem_cons_of_mem c hc''))]
        exact fsGet_fsDelete_ne fs c.localFile name
          (fun he => hname c (List.mem_cons_self c cs) he)

theorem take_take_append (l : List Nat) (m b : Nat) (hmb : m ≤ b) :
    l.take m ++ (l.take b).drop m = l.take b := by
  have h1 : (l.take b).take m = l.take m := by
    rw [List.take_take, min_eq_left hmb]
  rw [← h1]
  exact List.take_append_drop m (l.take b)

theorem flatten_slices (file : Bytes) (C t : Nat) (n : Nat) (hlen : file.length = t) :
    ((List.range n).map (fun i => slice file (i * C) (min (i * C + C) t))).flatten
      = file.take (min (n * C) t) := by
  induction n with
  | zero => simp
  | succ n ih =>
      rw [List.range_succ, List.map_append, List.flatten_append, ih]
      simp only [List.map_cons, List.map_nil, List.flatten_cons, List.flatten_nil,
        List.append_nil]
      have e1 : (n + 1) * C = n * C + C := by ring
      rw [e1]
      rcases le_or_lt (n * C) t with hnc | hnc
      · rw [min_eq_left hnc, slice]
        exact take_take_append file (n * C) (min (n * C + C) t)
          (le_min (by omega) hnc)
      · rw [min_eq_right (le_of_lt hnc), min_eq_right (by omega), slice]
        have hdrop : (file.take t).drop (n * C) = [] := by
          apply List.drop_eq_nil_of_le
          rw [List.length_take]
          omega
        rw [hdrop, List.append_nil]

/-- C2: when every chunk of the planner's output has completed — each chunk
temp file holding exactly its byte range of the remote file — the merge step
(run by `start` whenever the job was not paused or errored) walks the chunks
in ascending index order, writes the destination file as the concatenation of
the ranges in index order (byte-equal to the whole remote file, so its length
is `totalSize`), and deletes every chunk temp file.  The hypotheses mention no
completion order: the result is the same whatever order the fetches finished
in. -/
theorem merger_ordered (j : DownloadJob) (lp : String) (C : Nat) (T : Int)
    (file : Bytes) (fs : FileSys) (hC : 0 < C)
    (hchunks : j.chunks
      = (initChunksWith C lp T).map (fun c => { c with status := ChunkStatus.completed }))
    (hfile : file.length = T.toNat)
    (hnodup : (j.chunks.map Chunk.localFile).Nodup)
    (hfiles : ∀ c ∈ j.chunks, fsGet fs c.localFile = some (slice file c.start c.stop)) :
    ((j.mergeChunks fs).1.status = JobStatus.merging) ∧
    ((j.chunks.map (fun c => slice file c.start c.stop)).flatten = file) ∧
    (fsGet (j.mergeChunks fs).2 j.localPath
      = some ((j.chunks.map (fun c => slice file c.start c.stop)).flatten)) ∧
    ((file.length : Int) = max T 0) ∧
    (∀ c ∈ j.chunks, c.localFile ≠ j.localPath →
      fsGet (j.mergeChunks fs).2 c.localFile = none) := by
  have hspec := mergeFold_spec j.chunks fs [] (fun c => slice file c.start c.stop)
    hnodup hfiles
  have hflat : (j.chunks.map (fun c => slice file c.start c.stop)).flatten = file := by
    rw [hchunks, List.map_map]
    have hmaps : ((initChunksWith C lp T).map
        ((fun c => slice file c.start c.stop) ∘ (fun c => { c with status := ChunkStatus.completed })))
        = (List.range (ceilDiv T C).toNat).map
            (fun i => slice file (i * C) (min (i * C + C) T.toNat)) := by
      rw [initChunksWith, List.map_map]
      rfl
    rw [hmaps, flatten_slices file C T.toNat (ceilDiv T C).toNat hfile]
    have htop : T.toNat ≤ (ceilDiv T C).toNat * C := by
      rcases le_or_lt T 0 with hT | hT
      · rw [ceilDiv_nonpos T C hT]
        omega
      · rw [ceilDiv_toNat_int T C hT.le hC]
        exact (ceilDivNat_bounds T.toNat C hC).1
    rw [min_eq_right htop, ← hfile, List.take_length]
  refine ⟨rfl, hflat, ?_, by omega, ?_⟩
  · show fsGet (fsSet (mergeFold j.chunks ([], fs)).2 j.localPath
        (mergeFold j.chunks ([], fs)).1) j.localPath = _
    rw [fsGet_fsSet_self, hspec.1]
    simp
  · intro c hc hne
    show fsGet (fsSet (mergeFold j.chunks ([], fs)).2 j.localPath
        (mergeFold j.chunks ([], fs)).1) c.localFile = none
    rw [fsGet_fsSet_ne _ _ _ _ (fun he => hne he.symm)]
    exact hspec.2.1 c hc

/-! ## Chunk failure semantics (claim C7) -/

/-- C7: a chunk fetch is reported failed exactly when the exec reported an
error and the chunk temp file was not created; in that event the worker-pool
step records the failure text (stderr plus chunk index) as the job error,
flips the job to `error`, re-enqueues nothing (the queue is untouched and the
chunk is marked `error`, never retried), and the start continuation performs
no merge on an errored job. -/
theorem chunk_failure_semantics (s : RunState) (w i : Nat) (c : Chunk)
    (r : ExecOutcome) (fs mfs : FileSys)
    (hw : s.workers.get? w = some (Worker.fetching i))
    (hc : s.job.chunks.get? i = some c) :
    ((∃ msg, downloadChunkResult c r fs = Except.error msg) ↔
      (r.errored = true ∧ fsGet fs c.localFile = none)) ∧
    (∀ msg, downloadChunkResult c r fs = Except.error msg →
      msg = "Chunk " ++ toString c.index ++ " failed: " ++ r.stderr ∧
      Step s
        { job := { s.job with
            chunks := setChunkStatus s.job.chunks i ChunkStatus.error
            error := some msg
            status := JobStatus.error }
          queue := s.queue
          workers := s.workers.set w Worker.exited } ∧
      ({ s.job with
          chunks := setChunkStatus s.job.chunks i ChunkStatus.error
          error := some msg
          status := JobStatus.error } : DownloadJob).error = some msg ∧
      ({ s.job with
          chunks := setChunkStatus s.job.chunks i ChunkStatus.error
          error := some msg
          status := JobStatus.error } : DownloadJob).finishAfterWorkers mfs
        = ({ s.job with
            chunks := setChunkStatus s.job.chunks i ChunkStatus.error
            error := some msg
            status := JobStatus.error }, mfs)) := by
  constructor
  · constructor
    · intro hmsg
      obtain ⟨msg, hmsg⟩ := hmsg
      rw [downloadChunkResult] at hmsg
      by_cases hcond : r.errored = true ∧ (fsGet fs c.localFile).isNone
      · exact ⟨hcond.1, Option.isNone_iff_eq_none.mp hcond.2⟩
      · rw [if_neg hcond] at hmsg
        exact absurd hmsg (by simp)
    · intro hcond
      refine ⟨"Chunk " ++ toString c.index ++ " failed: " ++ r.stderr, ?_⟩
      rw [downloadChunkResult, if_pos ⟨hcond.1, Option.isNone_iff_eq_none.mpr hcond.2⟩]
  · intro msg hmsg
    have hmsgeq : msg = "Chunk " ++ toString c.index ++ " failed: " ++ r.stderr := by
      rw [downloadChunkResult] at hmsg
      by_cases hcond : r.errored = true ∧ (fsGet fs c.localFile).isNone
      · rw [if_pos hcond] at hmsg
        injection hmsg with h
        exact h.symm
      · rw [if_neg hcond] at hmsg
        exact absurd hmsg (by simp)
    refine ⟨hmsgeq, Step.fetchErr s w i c r fs msg hw hc hmsg, rfl, ?_⟩
    rw [DownloadJob.finishAfterWorkers]
    simp

/-! ## Registry removal (claim C9) -/

theorem registryGet_delete_self (reg : Registry) (k : String) :
    registryGet (registryDelete reg k) k = none := by
  induction reg with
  | nil => rfl
  | cons p reg ih =>
      obtain ⟨n, j⟩ := p
      rw [registryDelete, List.filter_cons]
      by_cases hn : n = k
      · simp only [hn, bne_self_eq_false, Bool.false_eq_true, if_false]
        exact ih
      · simp only [bne_iff_ne, ne_eq, hn, not_false_eq_true, if_true]
        rw [registryGet]
        simp only [hn, if_false]
        exact ih

theorem cancelFold_preserves_none (cs : List Chunk) (fs : FileSys) (y : String)
    (h : fsGet fs y = none) :
    fsGet (cs.foldl
      (fun fs c => if (fsGet fs c.localFile).isSome then fsDelete fs c.localFile else fs)
      fs) y = none := by
  induction cs generalizing fs with
  | nil => exact h
  | cons c cs ih =>
      rw [List.foldl_cons]
      apply ih
      by_cases hx : (fsGet fs c.localFile).isSome
      · rw [if_pos hx]
        exact fsGet_fsDelete_none fs c.localFile y h
      · rw [if_neg hx]
        exact h

theorem cancelFold_none (cs : List Chunk) (fs : FileSys) :
    ∀ c ∈ cs, fsGet (cs.foldl
      (fun fs c => if (fsGet fs c.localFile).isSome then fsDelete fs c.localFile else fs)
      fs) c.localFile = none := by
  induction cs generalizing fs with
  | nil => intro c hc; exact absurd hc (by simp)
  | cons c cs ih =>
      intro c' hc'
      rw [List.foldl_cons]
      rcases List.mem_cons.mp hc' with rfl | hmem
      · apply cancelFold_preserves_none
        by_cases hx : (fsGet fs c'.localFile).isSome
        · rw [if_pos hx]
          exact fsGet_fsDelete_self fs c'.localFile
        · rw [if_neg hx]
          exact Option.not_isSome_iff_eq_none.mp hx
      · exact ih _ c' hmem

theorem cancel_deletes_files (j : DownloadJob) (fs : FileSys) :
    ∀ c ∈ j.chunks, fsGet (j.cancel fs).2 c.localFile = none :=
  cancelFold_none j.chunks fs

/-- C9: registry removal is idempotent and complete.  After
`removeDownloadJob`: the id no longer resolves; a second call with the same id
is a no-op, so calling it twice equals calling it once; if the id was absent
nothing changes at all; and if a job was present, every one of its chunk temp
files is gone from disk and no snapshot listed by `getAllDownloads` carries
its id (given the registry's keys match the stored jobs' ids, as
`createDownloadJob` guarantees). -/
theorem remove_idempotent (reg : Registry) (fs : FileSys) (jobId : String)
    (hkeys : ∀ p ∈ reg, p.2.jobId = p.1) :
    (getDownloadJob (removeDownloadJob reg fs jobId).1 jobId = none) ∧
    (removeDownloadJob (removeDownloadJob reg fs jobId).1
        (removeDownloadJob reg fs jobId).2 jobId = removeDownloadJob reg fs jobId) ∧
    (getDownloadJob reg jobId = none → removeDownloadJob reg fs jobId = (reg, fs)) ∧
    (∀ job, getDownloadJob reg jobId = some job →
      (∀ c ∈ job.chunks, fsGet (removeDownloadJob reg fs jobId).2 c.localFile = none) ∧
      (∀ p ∈ getAllDownloads (removeDownloadJob reg fs jobId).1, p.jobId ≠ jobId)) := by
  have h1 : getDownloadJob (removeDownloadJob reg fs jobId).1 jobId = none := by
    rw [removeDownloadJob]
    cases hreg : registryGet reg jobId with
    | none => exact hreg
    | some job => exact registryGet_delete_self reg jobId
  refine ⟨h1, ?_, ?_, ?_⟩
  · rw [removeDownloadJob]
    cases hreg : registryGet (removeDownloadJob reg fs jobId).1 jobId with
    | none => rfl
    | some job =>
        rw [getDownloadJob] at h1
        rw [h1] at hreg
        exact absurd hreg (by simp)
  · intro habs
    rw [getDownloadJob] at habs
    rw [removeDownloadJob, habs]
  · intro job hjob
    rw [getDownloadJob] at hjob
    constructor
    · rw [removeDownloadJob, hjob]
      exact cancel_deletes_files job fs
    · intro p hp
      rw [removeDownloadJob, hjob] at hp
      rw [getAllDownloads] at hp
      simp only [List.mem_map] at hp
      obtain ⟨q, hq, rfl⟩ := hp
      rw [registryDelete] at hq
      have hqreg : q ∈ reg := List.mem_of_mem_filter hq
      have hqne := List.of_mem_filter hq
      simp only [bne_iff_ne, ne_eq] at hqne
      have hkey := hkeys q hqreg
      show q.2.getProgress.jobId ≠ jobId
      rw [show q.2.getProgress.jobId = q.2.jobId from rfl, hkey]
      exact hqne

/-! ## Zero-size jobs (claim C10) -/

theorem jsRound_intFloor (x : ℚ) : jsRound x = Int.floor (x + 1/2) := by
  rw [jsRound, Rat.floor_def', Rat.floor_def]

theorem jsRound_zero : jsRound 0 = 0 := by
  rw [jsRound_intFloor]
  rw [Int.floor_eq_iff]
  norm_num

theorem initChunksWith_zero (C : Nat) (lp : String) : initChunksWith C lp 0 = [] := by
  rw [initChunksWith]
  simp [ceilDiv]

theorem zero_job_reached {jobId rp lp : String} {now : Int} {s : RunState}
    (h : Reaches (startRun (DownloadJob.new jobId rp lp 0) now) s) :
    s.workers = [] ∧ s.job.chunks = [] ∧ s.job.completedChunks = 0 ∧
    s.job.bytesDownloaded = 0 ∧ s.job.speed = 0 ∧ s.job.fileSize = 0 := by
  induction h with
  | refl =>
      refine ⟨?_, ?_, rfl, rfl, rfl, rfl⟩
      · show List.replicate (min MAX_CONCURRENCY (initChunks lp 0).length) Worker.ready = []
        rw [initChunks, initChunksWith_zero]
        rfl
      · show initChunks lp 0 = []
        rw [initChunks, initChunksWith_zero]
  | tail h1 h2 ih =>
      cases h2 with
      | guardExit w hw hg =>
          rw [ih.1] at hw
          exact absurd hw (by simp)
      | dequeue w i rest hw hg hq =>
          rw [ih.1] at hw
          exact absurd hw (by simp)
      | fetchOk w i c r fs now hw hc hr =>
          rw [ih.1] at hw
          exact absurd hw (by simp)
      | fetchErr w i c r fs msg hw hc hr =>
          rw [ih.1] at hw
          exact absurd hw (by simp)
      | pause => exact ih
      | cancel => exact ih

/-- C10: creating a job with `totalSize = 0` succeeds: the job is stored in
the registry with an empty chunk list; `start()` launches zero workers, so no
chunk fetch is ever dispatched in any reachable state; the continuation after
the (empty) worker pool settles immediately merges, writing an empty
destination file and ending with status `completed`; and every reachable
progress snapshot reports `percent = 0`, `eta = 0` and `0` of `0` chunks. -/
theorem zero_size_job (reg : Registry) (jobId rp lp : String) (now : Int) (fs : FileSys) :
    ((createDownloadJob reg jobId rp lp 0).1.chunks = []) ∧
    (getDownloadJob (createDownloadJob reg jobId rp lp 0).2 jobId
      = some (createDownloadJob reg jobId rp lp 0).1) ∧
    ((startRun (createDownloadJob reg jobId rp lp 0).1 now).workers = []) ∧
    (∀ s, Reaches (startRun (createDownloadJob reg jobId rp lp 0).1 now) s →
      inFlight s = 0) ∧
    (((startRun (createDownloadJob reg jobId rp lp 0).1 now).job.finishAfterWorkers fs).1.status
      = JobStatus.completed) ∧
    (fsGet ((startRun (createDownloadJob reg jobId rp lp 0).1 now).job.finishAfterWorkers fs).2 lp
      = some []) ∧
    (∀ s, Reaches (startRun (createDownloadJob reg jobId rp lp 0).1 now) s →
      s.job.getProgress.percent = 0 ∧ s.job.getProgress.eta = 0 ∧
      s.job.getProgress.completedChunks = 0 ∧ s.job.getProgress.totalChunks = 0) := by
  have hchunks : (createDownloadJob reg jobId rp lp 0).1.chunks = [] := by
    show initChunks lp 0 = []
    rw [initChunks, initChunksWith_zero]
  have hnewjob : (createDownloadJob reg jobId rp lp 0).1
      = DownloadJob.new jobId rp lp 0 := rfl
  have hstat : (startRun (createDownloadJob reg jobId rp lp 0).1 now).job.status
      = JobStatus.downloading := rfl
  refine ⟨hchunks, ?_, ?_, ?_, ?_, ?_, ?_⟩
  · rw [getDownloadJob, createDownloadJob]
    show registryGet (registrySet reg jobId _) jobId = _
    rw [registrySet, registryGet]
    simp
  · show List.replicate (min MAX_CONCURRENCY (initChunks lp 0).length) Worker.ready = []
    rw [initChunks, initChunksWith_zero]
    rfl
  · intro s hs
    rw [hnewjob] at hs
    have hz := zero_job_reached hs
    rw [inFlight, hz.1]
    rfl
  · rw [DownloadJob.finishAfterWorkers, if_pos (by rw [hstat]; exact ⟨by simp, by simp⟩)]
  · rw [DownloadJob.finishAfterWorkers, if_pos (by rw [hstat]; exact ⟨by simp, by simp⟩)]
    show fsGet (fsSet (mergeFold _ ([], fs)).2 lp (mergeFold _ ([], fs)).1) lp = some []
    have hm : mergeFold (startRun (createDownloadJob reg jobId rp lp 0).1 now).job.chunks
        ([], fs) = ([], fs) := by
      show mergeFold (initChunks lp 0) ([], fs) = ([], fs)
      rw [initChunks, initChunksWith_zero]
      rfl
    rw [hm]
    exact fsGet_fsSet_self fs lp []
  · intro s hs
    rw [hnewjob] at hs
    have hz := zero_job_reached hs
    rw [DownloadJob.getProgress]
    have hfs : s.job.fileSize = 0 := hz.2.2.2.2.2
    have hsp : s.job.speed = 0 := hz.2.2.2.2.1
    refine ⟨?_, ?_, hz.2.2.1, ?_⟩
    · show (jsRound ((if 0 < s.job.fileSize then
          (s.job.bytesDownloaded : ℚ) / (s.job.fileSize : ℚ) * 100 else 0) * 100) : ℚ) / 100 = 0
      rw [hfs]
      norm_num [jsRound_zero]
    · show jsRound (if 0 < s.job.speed then
          ((s.job.fileSize : ℚ) - (s.job.bytesDownloaded : ℚ)) / s.job.speed else 0) = 0
      rw [hsp]
      norm_num [jsRound_zero]
    · show s.job.chunks.length = 0
      rw [hz.2.1]
      rfl

/-! ## Creation does not validate the size (claim C3, corrected) -/

/-- C3 counterexample: `createDownloadJob` called with `totalSize = 0`
creates a job and stores it in the registry — there is no invalid-size
rejection anywhere in the code (`POST /api/download/start` checks only that
the remote stat succeeded). -/
theorem createDownloadJob_accepts_zero :
    ((getDownloadJob (createDownloadJob [] "dl_0" "/sdcard/z.bin" "/tmp/z.bin" 0).2
        "dl_0").isSome = true) ∧
    ((createDownloadJob [] "dl_0" "/sdcard/z.bin" "/tmp/z.bin" 0).1.status
      = JobStatus.pending) := by
  constructor
  · decide
  · rfl

/-- C3 amended: job creation performs no validation of `totalSize`: for every
`totalSize ≤ 0` the job is still created — with an empty chunk list and status
`pending` — and stored in the registry under its id. -/
theorem createDownloadJob_no_size_validation (reg : Registry)
    (jobId rp lp : String) (T : Int) (hT : T ≤ 0) :
    ((createDownloadJob reg jobId rp lp T).1.chunks = []) ∧
    ((createDownloadJob reg jobId rp lp T).1.status = JobStatus.pending) ∧
    (getDownloadJob (createDownloadJob reg jobId rp lp T).2 jobId
      = some (createDownloadJob reg jobId rp lp T).1) := by
  refine ⟨?_, rfl, ?_⟩
  · show initChunks lp T = []
    have hlen : (initChunks lp T).length = 0 := by
      rw [initChunks, length_initChunksWith, ceilDiv_nonpos T CHUNK_SIZE hT]
    exact List.length_eq_zero.mp hlen
  · rw [getDownloadJob, createDownloadJob]
    show registryGet (registrySet reg jobId _) jobId = _
    rw [registrySet, registryGet]
    simp

/-- Witness for `createDownloadJob_no_size_validation` at `totalSize = 0`. -/
theorem createDownloadJob_no_size_validation_witness :
    ((0 : Int) ≤ 0) ∧
    ((createDownloadJob [] "dl_0w" "/sdcard/z.bin" "/tmp/z.bin" 0).1.chunks = [] ∧
     (createDownloadJob [] "dl_0w" "/sdcard/z.bin" "/tmp/z.bin" 0).1.status
        = JobStatus.pending ∧
     getDownloadJob (createDownloadJob [] "dl_0w" "/sdcard/z.bin" "/tmp/z.bin" 0).2 "dl_0w"
        = some (createDownloadJob [] "dl_0w" "/sdcard/z.bin" "/tmp/z.bin" 0).1) :=
  ⟨by decide,
   createDownloadJob_no_size_validation [] "dl_0w" "/sdcard/z.bin" "/tmp/z.bin" 0 (by decide)⟩

/-! ## Terminal statuses are not guarded (claim C4, corrected) -/

/-- C4 counterexample: the statuses the spec calls terminal can be left.  An
external `cancel()` (the `DELETE /api/download/:jobId` route, callable at any
time) moves a `completed` job to `cancelled`; the start continuation merges
and completes a job whose status is `cancelled`; and `pause()` moves an
`error` job to `paused`. -/
theorem terminal_status_overwritten :
    ((({ DownloadJob.new "dl_4" "/sdcard/c.bin" "/tmp/c.bin" 0 with
        status := JobStatus.completed } : DownloadJob).cancel []).1.status
      = JobStatus.cancelled) ∧
    ((({ DownloadJob.new "dl_4" "/sdcard/c.bin" "/tmp/c.bin" 0 with
        status := JobStatus.cancelled } : DownloadJob).finishAfterWorkers []).1.status
      = JobStatus.completed) ∧
    ((({ DownloadJob.new "dl_4" "/sdcard/c.bin" "/tmp/c.bin" 0 with
        status := JobStatus.error } : DownloadJob).pause).status = JobStatus.paused) := by
  refine ⟨rfl, ?_, rfl⟩
  rw [DownloadJob.finishAfterWorkers, if_pos ⟨by simp, by simp⟩]

/-- C4 amended: `completed`, `error` and `cancelled` are not terminal.
`pause()` and `cancel()` unconditionally overwrite the status of any job, and
the start continuation merges and completes a job whose status is `cancelled`;
only statuses `error` and `paused` are left untouched (and unmerged) by the
start continuation. -/
theorem status_overwrite_semantics (j : DownloadJob) (fs : FileSys) :
    (j.pause.status = JobStatus.paused) ∧
    ((j.cancel fs).1.status = JobStatus.cancelled) ∧
    (j.status = JobStatus.error → j.finishAfterWorkers fs = (j, fs)) ∧
    (j.status = JobStatus.paused → j.finishAfterWorkers fs = (j, fs)) ∧
    (j.status = JobStatus.cancelled →
      (j.finishAfterWorkers fs).1.status = JobStatus.completed) := by
  refine ⟨rfl, rfl, ?_, ?_, ?_⟩
  · intro h
    rw [DownloadJob.finishAfterWorkers, if_neg (by simp [h])]
  · intro h
    rw [DownloadJob.finishAfterWorkers, if_neg (by simp [h])]
  · intro h
    rw [DownloadJob.finishAfterWorkers, if_pos (by rw [h]; exact ⟨by simp, by simp⟩)]

/-- Witness for `status_overwrite_semantics` on a concrete cancelled job. -/
theorem status_overwrite_semantics_witness :
    (({ DownloadJob.new "dl_4w" "/sdcard/c.bin" "/tmp/c.bin" 0 with
        status := JobStatus.cancelled } : DownloadJob).status = JobStatus.cancelled) ∧
    ((({ DownloadJob.new "dl_4w" "/sdcard/c.bin" "/tmp/c.bin" 0 with
        status := JobStatus.cancelled } : DownloadJob).finishAfterWorkers []).1.status
      = JobStatus.completed) :=
  ⟨rfl,
   (status_overwrite_semantics
      { DownloadJob.new "dl_4w" "/sdcard/c.bin" "/tmp/c.bin" 0 with
          status := JobStatus.cancelled } []).2.2.2.2 rfl⟩

/-! ## The dispatch guard does not observe cancellation (claim C5, corrected) -/

/-- C5 amended: dispatch is cooperative for pause and error only.  In any
worker-pool step, a chunk can be dequeued only when the status at dispatch
time is neither `paused` nor `error` (and the queue is non-empty); when the
guard holds, the queue is untouched.  A `pause()` or `cancel()` request itself
never alters the workers or the queue — in-flight fetches run to completion.
Cancellation is not part of the dispatch guard, so it does not stop further
dequeues (see the counterexample `cancel_not_observed`). -/
theorem dispatch_guard_semantics (s s' : RunState) (hstep : Step s s') :
    (s'.queue.length < s.queue.length →
      s.job.status ≠ JobStatus.paused ∧ s.job.status ≠ JobStatus.error ∧ s.queue ≠ []) ∧
    (dispatchGuard s = true → s'.queue = s.queue) ∧
    (s'.job.status = JobStatus.paused →
      s.job.status = JobStatus.paused ∨ (s'.workers = s.workers ∧ s'.queue = s.queue)) ∧
    (s'.job.status = JobStatus.cancelled →
      s.job.status = JobStatus.cancelled ∨ (s'.workers = s.workers ∧ s'.queue = s.queue)) := by
  cases hstep with
  | guardExit w hw hg =>
      exact ⟨fun h => absurd h (lt_irrefl _), fun _ => rfl, fun h => Or.inl h,
        fun h => Or.inl h⟩
  | dequeue w i rest hw hg hq =>
      rw [dispatchGuard] at hg
      simp only [Bool.or_eq_false_iff, beq_eq_false_iff_ne, ne_eq] at hg
      refine ⟨fun _ => ⟨hg.1.2, hg.2, by rw [hq]; simp⟩, ?_, fun h => Or.inl h,
        fun h => Or.inl h⟩
      intro htrue
      rw [dispatchGuard] at htrue
      simp only [Bool.or_eq_true, beq_iff_eq] at htrue
      rcases htrue with (hqe | hp) | he
      · rw [hq] at hqe
        exact absurd hqe (by simp)
      · exact absurd hp hg.1.2
      · exact absurd he hg.2
  | fetchOk w i c r fs now hw hc hr =>
      refine ⟨fun h => absurd h (lt_irrefl _), fun _ => rfl, ?_, ?_⟩
      · intro h
        rw [updateSpeed_status] at h
        exact Or.inl h
      · intro h
        rw [updateSpeed_status] at h
        exact Or.inl h
  | fetchErr w i c r fs msg hw hc hr =>
      refine ⟨fun h => absurd h (lt_irrefl _), fun _ => rfl, ?_, ?_⟩
      · intro h
        exact absurd h (by simp)
      · intro h
        exact absurd h (by simp)
  | pause =>
      exact ⟨fun h => absurd h (lt_irrefl _), fun _ => rfl,
        fun _ => Or.inr ⟨rfl, rfl⟩, fun h => absurd h (by simp [DownloadJob.pause])⟩
  | cancel =>
      exact ⟨fun h => absurd h (lt_irrefl _), fun _ => rfl,
        fun h => absurd h (by simp), fun _ => Or.inr ⟨rfl, rfl⟩⟩

/-- Witness for `dispatch_guard_semantics`: a `pause()` step on the freshly
started five-chunk run. -/
theorem dispatch_guard_semantics_witness :
    Step cexS0 { cexS0 with job := cexS0.job.pause } ∧
    (({ cexS0 with job := cexS0.job.pause } : RunState).job.status = JobStatus.paused →
      cexS0.job.status = JobStatus.paused ∨
        (({ cexS0 with job := cexS0.job.pause } : RunState).workers = cexS0.workers ∧
         ({ cexS0 with job := cexS0.job.pause } : RunState).queue = cexS0.queue)) :=
  ⟨Step.pause cexS0, (dispatch_guard_semantics cexS0 _ (Step.pause cexS0)).2.2.1⟩

/-- C5 counterexample: cancellation is not observed at dispatch boundaries.
From the started five-chunk run, worker 0 dequeues chunk 0, an external
`cancel()` lands (status becomes `cancelled`, queue still `[1, 2, 3, 4]`),
the in-flight fetch finishes — and the worker then dequeues and starts chunk 1
even though the job was cancelled, because `processNext` only checks for
`paused` and `error`. -/
theorem cancel_not_observed :
    Reaches cexS0 cexS2 ∧
    cexS2.job.status = JobStatus.cancelled ∧
    cexS2.queue = [1, 2, 3, 4] ∧
    Step cexS2 cexS3 ∧
    Step cexS3 cexS4 ∧
    cexS4.workers.get? 0 = some (Worker.fetching 1) ∧
    cexS4.queue = [2, 3, 4] := by
  have h01 : Step cexS0 cexS1 :=
    Step.dequeue cexS0 0 0 [1, 2, 3, 4] (by decide) (by decide) (by decide)
  have h12 : Step cexS1 cexS2 := Step.cancel cexS1
  have h23 : Step cexS2 cexS3 :=
    Step.fetchOk cexS2 0 0 cexChunk0 ⟨false, ""⟩ [] 1 (by decide) (by decide) rfl
  have hst3 : cexS3.job.status = JobStatus.cancelled := by
    show (DownloadJob.updateSpeed _ 1).status = _
    rw [updateSpeed_status]
    rfl
  have hg34 : dispatchGuard cexS3 = false := by
    rw [dispatchGuard, hst3]
    decide
  have h34 : Step cexS3 cexS4 :=
    Step.dequeue cexS3 0 1 [2, 3, 4] (by decide) hg34 (by decide)
  exact ⟨Relation.ReflTransGen.tail (Relation.ReflTransGen.tail
      Relation.ReflTransGen.refl h01) h12, rfl, rfl, h23, h34, by decide, rfl⟩

/-! ## Remaining witnesses -/

/-- Witness for `chunkPlanner_partition` at `totalSize = 7`, `C = 3`. -/
theorem chunkPlanner_partition_witness :
    (0 < 3) ∧ (0 < (7 : Int)) ∧
    ((initChunksWith 3 "/tmp/w.bin" 7).length = ((7 : Int).toNat + 3 - 1) / 3 ∧
     ((initChunksWith 3 "/tmp/w.bin" 7).map Chunk.size).sum = (7 : Int).toNat) :=
  ⟨by decide, by decide,
   (chunkPlanner_partition "/tmp/w.bin" 3 7 (by decide) (by decide)).1,
   (chunkPlanner_partition "/tmp/w.bin" 3 7 (by decide) (by decide)).2.2.2.2.2.1⟩

/-- Witness for `merger_ordered` on the 7-byte file with chunk size 3. -/
theorem merger_ordered_witness :
    (0 < 3) ∧
    (c2job.chunks = (initChunksWith 3 "/tmp/b.bin" 7).map
        (fun c => { c with status := ChunkStatus.completed })) ∧
    (c2file.length = (7 : Int).toNat) ∧
    ((c2job.chunks.map Chunk.localFile).Nodup) ∧
    (∀ c ∈ c2job.chunks, fsGet c2fs c.localFile = some (slice c2file c.start c.stop)) ∧
    (((c2job.chunks.map (fun c => slice c2file c.start c.stop)).flatten = c2file) ∧
      fsGet (c2job.mergeChunks c2fs).2 c2job.localPath
        = some ((c2job.chunks.map (fun c => slice c2file c.start c.stop)).flatten)) :=
  ⟨by decide, rfl, by decide, by decide, by decide,
   (merger_ordered c2job "/tmp/b.bin" 3 7 c2file c2fs (by decide) rfl (by decide)
      (by decide) (by decide)).2.1,
   (merger_ordered c2job "/tmp/b.bin" 3 7 c2file c2fs (by decide) rfl (by decide)
      (by decide) (by decide)).2.2.1⟩

/-- Witness for `chunk_failure_semantics`: a fetch whose exec errored with no
temp file produced. -/
theorem chunk_failure_semantics_witness :
    (c7s.workers.get? 0 = some (Worker.fetching 0)) ∧
    (c7s.job.chunks.get? 0 = some c7chunk) ∧
    (∃ msg, downloadChunkResult c7chunk ⟨true, "dd: I/O error"⟩ [] = Except.error msg) :=
  ⟨by decide, by decide,
   (chunk_failure_semantics c7s 0 0 c7chunk ⟨true, "dd: I/O error"⟩ [] []
      (by decide) (by decide)).1.mpr ⟨rfl, rfl⟩⟩

/-- Witness for `remove_idempotent` on a single-job registry. -/
theorem remove_idempotent_witness :
    (∀ p ∈ c9reg, p.2.jobId = p.1) ∧
    ((getDownloadJob (removeDownloadJob c9reg c9fs "dl_9").1 "dl_9" = none) ∧
     (removeDownloadJob (removeDownloadJob c9reg c9fs "dl_9").1
        (removeDownloadJob c9reg c9fs "dl_9").2 "dl_9"
      = removeDownloadJob c9reg c9fs "dl_9")) :=
  ⟨by decide,
   (remove_idempotent c9reg c9fs "dl_9" (by decide)).1,
   (remove_idempotent c9reg c9fs "dl_9" (by decide)).2.1⟩

end AdbExplorer
